import Mathlib

/-!
Shallow embedding of the fetch/cache/rate-limit/retry core of the
david11133/side-quests scraping scripts, together with proofs settling the
frozen claims about it.

Conventions of the embedding:
* Python floats (delays, timestamps) are modelled as rationals; the claims
  are order/comparison properties that do not depend on rounding.
* `random.uniform` draws and `time.time()` readings are passed in as
  explicit oracle functions, indexed by the running request counter.
* Network I/O is an oracle `Nat -> HttpResponse` giving the response to the
  n-th HTTP GET issued in the run; `BeautifulSoup` parsing is modelled as
  the identity on the body text.
* `hashlib.md5` cache keys are modelled by the identity on the URL string:
  only key equality is ever used by the code.
-/

namespace Scrape

/-! ### Rate limiter (src/Server My Store Scraper/scraper.py lines 58-85,
src/Gamers E-Commerce/scraper.py lines 43-75; both variants have identical
method bodies and differ only in the constructor defaults). -/

structure RateLimiter where
  base_delay : ℚ
  max_delay : ℚ
  current_delay : ℚ
  last_429_time : ℚ
  success_count : ℕ
deriving DecidableEq

/-- Constructor defaults of the Server My Store variant
(`base_delay=1.0, max_delay=10.0`). -/
def RateLimiter.mkServer : RateLimiter :=
  { base_delay := 1, max_delay := 10, current_delay := 1
    last_429_time := 0, success_count := 0 }

/-- Constructor defaults of the Gamers E-Commerce variant
(`base_delay=2.0, max_delay=60.0`). -/
def RateLimiter.mkGamers : RateLimiter :=
  { base_delay := 2, max_delay := 60, current_delay := 2
    last_429_time := 0, success_count := 0 }

/-- `report_success`: increment the consecutive-success counter; once it
reaches 10 and the delay sits above the floor, decay the delay by 0.9
(clamped below by `base_delay`) and reset the counter. -/
def RateLimiter.report_success (s : RateLimiter) : RateLimiter :=
  if 10 ≤ s.success_count + 1 ∧ s.base_delay < s.current_delay then
    { s with current_delay := max s.base_delay (s.current_delay * (9 / 10))
             success_count := 0 }
  else
    { s with success_count := s.success_count + 1 }

/-- `report_429`: record the throttling timestamp; with a truthy
`retry_after` hint set the delay to `min(max_delay, retry_after + 1)`,
otherwise double it, capped at `max_delay`; reset the success counter.
Python truthiness: `None` and `0` both take the doubling branch. -/
def RateLimiter.report_429 (s : RateLimiter) (now : ℚ) (retry_after : Option ℚ) :
    RateLimiter :=
  match retry_after with
  | some r =>
    if r ≠ 0 then
      { s with last_429_time := now
               current_delay := min s.max_delay (r + 1), success_count := 0 }
    else
      { s with last_429_time := now
               current_delay := min s.max_delay (s.current_delay * 2)
               success_count := 0 }
  | none =>
    { s with last_429_time := now
             current_delay := min s.max_delay (s.current_delay * 2)
             success_count := 0 }

/-! ### Python dict primitives.

A Python dict is modelled as an association list without duplicate keys:
assignment updates an existing key in place or appends a fresh one,
`pop` removes a key, lookup returns the first (unique) match. -/

def dictGet {K V : Type} [DecidableEq K] (d : List (K × V)) (k : K) : Option V :=
  (d.find? (fun p => decide (p.1 = k))).map Prod.snd

def dictSet {K V : Type} [DecidableEq K] (d : List (K × V)) (k : K) (v : V) :
    List (K × V) :=
  if (d.find? (fun p => decide (p.1 = k))).isSome then
    d.map (fun p => if p.1 = k then (k, v) else p)
  else
    d ++ [(k, v)]

def dictPop {K V : Type} [DecidableEq K] (d : List (K × V)) (k : K) :
    List (K × V) :=
  d.filter (fun p => decide (p.1 ≠ k))

/-! ### LimitedCache (src/Suhail Data Gathering/main.py lines 58-81 and
src/Suhail Data Gathering/Parcel-Centric Real Estate Scraper/main.py lines
131-151; the two class bodies are identical). -/

structure LimitedCache (K V : Type) where
  cache : List (K × V)
  access_order : List K
  max_size : ℕ
deriving DecidableEq

def LimitedCache.empty (K V : Type) (m : ℕ) : LimitedCache K V :=
  { cache := [], access_order := [], max_size := m }

/-- `get(key, default=None)`: plain dict lookup, no state change. -/
def LimitedCache.get {K V : Type} [DecidableEq K] (c : LimitedCache K V)
    (k : K) : Option V :=
  dictGet c.cache k

/-- The eviction prologue of `set`: `if key not in self.cache and
len(self.cache) >= self.max_size: old_key = self.access_order.popleft();
self.cache.pop(old_key, None)`. -/
def LimitedCache.evictIfFull {K V : Type} [DecidableEq K]
    (c : LimitedCache K V) (k : K) : LimitedCache K V :=
  if (dictGet c.cache k).isNone ∧ c.max_size ≤ c.cache.length then
    match c.access_order with
    | [] => c
    | old :: rest =>
      { c with cache := dictPop c.cache old, access_order := rest }
  else c

/-- `set(key, value)`: evict the front of `access_order` when inserting a
new key into a full cache, then store the value and move the key to the
back of `access_order` (`remove` drops the first occurrence if present,
then `append`). -/
def LimitedCache.set {K V : Type} [DecidableEq K] (c : LimitedCache K V)
    (k : K) (v : V) : LimitedCache K V :=
  let c1 := c.evictIfFull k
  { c1 with cache := dictSet c1.cache k v
            access_order := c1.access_order.erase k ++ [k] }

/-- One client-visible operation on a `LimitedCache`. -/
inductive CacheOp (K V : Type) where
  | get (k : K)
  | set (k : K) (v : V)
deriving DecidableEq

/-- Run a sequence of operations; `get` does not mutate the cache. -/
def runOps {K V : Type} [DecidableEq K] (c : LimitedCache K V) :
    List (CacheOp K V) → LimitedCache K V
  | [] => c
  | CacheOp.get _ :: rest => runOps c rest
  | CacheOp.set k v :: rest => runOps (c.set k v) rest

/-- `safeOps c ops` holds when no `set` in `ops` inserts a brand-new key
into an already-full cache (so the eviction branch never runs). -/
def safeOps {K V : Type} [DecidableEq K] (c : LimitedCache K V) :
    List (CacheOp K V) → Bool
  | [] => true
  | CacheOp.get _ :: rest => safeOps c rest
  | CacheOp.set k v :: rest =>
    ((dictGet c.cache k).isSome || c.cache.length < c.max_size) &&
      safeOps (c.set k v) rest

/-- Representation invariant relating the dict and the access queue:
the queue holds exactly the dict's keys, each once. -/
def LCInv {K V : Type} [DecidableEq K] (c : LimitedCache K V) : Prop :=
  c.access_order.Nodup ∧ (c.cache.map Prod.fst).Perm c.access_order

/-! ### Batch enrichment (src/Suhail Data Gathering/main.py lines 209-255,
`batch_fetch_details`; `batch_fetch_geometries`, lines 257-302, has the
same structure with `None` in place of the empty dict).

The worker pool is modelled sequentially: each uncached key is fetched
once and its outcome recorded; a worker exception (`future.result`
raising, or the outer `as_completed` timeout marking the remainder of a
chunk) stores the empty result for that key.  The `BATCH_SIZE` chunking
only groups consecutive fetches and is invisible to a sequential model. -/

inductive FetchResult (V : Type) where
  | ok (v : V)
  | exn
deriving DecidableEq

/-- First loop of `batch_fetch_details`: serve cached keys into `results`,
queue the rest into `to_fetch`. -/
def detailsPass1 {K V : Type} [DecidableEq K] (c : LimitedCache K V)
    (keys : List K) : List (K × V) × List K :=
  keys.foldl
    (fun acc k =>
      match dictGet c.cache k with
      | some v => (dictSet acc.1 k v, acc.2)
      | none => (acc.1, acc.2 ++ [k]))
    ([], [])

/-- Second loop: fetch every queued key, caching and recording either the
fetched value or `empty` on a worker exception. -/
def detailsPass2 {K V : Type} [DecidableEq K] (empty : V)
    (worker : K → FetchResult V) :
    LimitedCache K V → List (K × V) → List K → List (K × V) × LimitedCache K V
  | c, results, [] => (results, c)
  | c, results, k :: ks =>
    match worker k with
    | FetchResult.ok v =>
      detailsPass2 empty worker (c.set k v) (dictSet results k v) ks
    | FetchResult.exn =>
      detailsPass2 empty worker (c.set k empty) (dictSet results k empty) ks

def batch_fetch_details {K V : Type} [DecidableEq K] (empty : V)
    (worker : K → FetchResult V) (c : LimitedCache K V) (keys : List K) :
    List (K × V) × LimitedCache K V :=
  let p := detailsPass1 c keys
  detailsPass2 empty worker c p.1 p.2

/-- The value recorded for a fetched key: the worker's value, or `empty`
when the worker raised. -/
def workerOut {V : Type} (empty : V) {K : Type} (worker : K → FetchResult V)
    (k : K) : V :=
  match worker k with
  | FetchResult.ok v => v
  | FetchResult.exn => empty

/-! ### CSV sinks.

A row handed to `csv.DictWriter` is an ordered dict from field name to
cell text.  A CSV file is a list of written entries, each either the
header line or one data row; `none` stands for a file that does not exist
yet (`open(..., 'r')` raising `FileNotFoundError`).  `DictWriter` fills a
missing field with the rest value (the empty string).  Extra keys depend
on `extrasaction`: the nontransactional sink passes `'ignore'` (extras
dropped), while the two main.py sinks keep the default `'raise'`, so a
row with a key outside the fieldnames raises `ValueError` before that row
is written and aborts the rest of `writerows` — the rows already written
stay in the file.  The raised exception is modelled by a `false` flag
paired with the file contents. -/

abbrev Row : Type := List (String × String)

inductive CsvEntry where
  | header (fields : List String)
  | row (cells : List String)
deriving DecidableEq

def isHeaderEntry : CsvEntry → Bool
  | CsvEntry.header _ => true
  | CsvEntry.row _ => false

/-- `DictWriter._dict_to_list` under `extrasaction='ignore'`: one cell per
field, in field order; extra keys dropped, missing keys filled with the
empty rest value. -/
def serializeRowIgnore (fields : List String) (r : Row) : List String :=
  fields.map (fun f => (dictGet r f).getD (String.mk []))

/-- `DictWriter.writerow` with the default `extrasaction='raise'`: `none`
models the `ValueError` raised when the row has a key outside the
fieldnames (checked before anything is written for that row). -/
def serializeRow (fields : List String) (r : Row) : Option (List String) :=
  if r.all (fun kv => decide (kv.1 ∈ fields)) then
    some (serializeRowIgnore fields r)
  else none

/-- `DictWriter.writerows` under `extrasaction='raise'`: write rows in
order; the first offending row raises, keeping the rows already written
and writing none after it.  The flag is `false` iff a `ValueError` was
raised. -/
def writerows (fields : List String) : List Row → List CsvEntry × Bool
  | [] => ([], true)
  | r :: rs =>
    match serializeRow fields r with
    | none => ([], false)
    | some cells =>
      let p := writerows fields rs
      (CsvEntry.row cells :: p.1, p.2)

/-- `new_rows[0].keys()` (and `[]` for an empty batch, unreachable there). -/
def rowFields : List Row → List String
  | [] => []
  | r :: _ => r.map Prod.fst

/-- The entries appended by a raise-free `writerows` call. -/
def rowsOut (fields : List String) (rows : List Row) : List CsvEntry :=
  rows.map (fun r => CsvEntry.row (serializeRowIgnore fields r))

/-- `append_to_csv` of src/Suhail Data Gathering/main.py lines 304-319 and
src/Suhail Data Gathering/Parcel-Centric Real Estate Scraper/main.py lines
453-468: return early on an empty batch; write a header iff the file did
not exist; the header fields are `new_rows[0].keys()` — taken dynamically
from the first row of the batch.  The rows go through `writer.writerows`
with the default `extrasaction='raise'`: a stray-key row raises
`ValueError` out of the call (flag `false`), after the header and the
preceding rows have already been written. -/
def append_to_csv (file : Option (List CsvEntry)) (new_rows : List Row) :
    Option (List CsvEntry) × Bool :=
  match new_rows with
  | [] => (file, true)
  | r0 :: _ =>
    let w := writerows (r0.map Prod.fst) new_rows
    (some ((file.getD []) ++
      (if file.isSome then [] else [CsvEntry.header (r0.map Prod.fst)]) ++
      w.1), w.2)

/-- The fixed schema of
src/Suhail Data Gathering/Nontransactional/nontransactional.py. -/
def parcel_headers : List String :=
  ["region_id", "region_name", "province_id", "province_name",
   "parcel_objectid", "parcel_no", "subdivision_no", "block_no",
   "neighborhood_id", "neighborhood_name", "total_area",
   "land_use_detailed", "land_use_group", "municipality_name",
   "zoning_id", "geometry"]

/-- `init_csv_files` (nontransactional.py lines 335-345): truncate the
output file and write the fixed header. -/
def init_csv_files : List CsvEntry :=
  [CsvEntry.header parcel_headers]

/-- `append_to_csv` (nontransactional.py lines 348-359): append data rows
only, serialized against the fixed schema with `extrasaction='ignore'`;
never writes a header. -/
def nt_append_to_csv (file : List CsvEntry) (data : List Row) :
    List CsvEntry :=
  match data with
  | [] => file
  | _ => file ++ rowsOut parcel_headers data

/-! ### Pagination aggregation (src/Gamers E-Commerce/scraper.py lines
277-312, `get_all_products_from_category`).

A product URL is modelled as a base plus an optional query string, so that
the spec's "canonical URL with query stripped" identity key is
expressible; the code itself keys on the full URL value.  The page
contents are passed in already parsed (`_parse_product_cards` output); the
routine concatenates page 1 with the remaining pages and deduplicates via
the Python dict comprehension over `p['url']` (first-occurrence key order,
last-occurrence value). -/

structure Url where
  base : ℕ
  query : Option ℕ
deriving DecidableEq

structure Product where
  name : ℕ
  url : Url
deriving DecidableEq

/-- The identity key named by the spec: the URL with its query stripped. -/
def stripQuery (u : Url) : Url :=
  { u with query := none }

def get_all_products_from_category (page1 : List Product)
    (restPages : List (List Product)) : List Product :=
  let all_products := page1 ++ restPages.flatten
  let unique_products :=
    all_products.foldl (fun d p => dictSet d p.url p) []
  unique_products.map Prod.snd

/-! ### Fetch client (src/Server My Store Scraper/scraper.py lines 91-156
and src/Gamers E-Commerce/scraper.py lines 81-146; the two bodies are
identical, only the default `retries` differs).  Responses come from an
oracle indexed by the number of `session.get` calls made so far; both
scripts build their session as a bare `requests.Session()` with no retry
adapter, so one oracle entry is one HTTP request on the wire. -/

inductive HttpResponse where
  | ok (body : String)
  | connError
  | httpError (status : ℕ) (retryAfter : Option ℕ)
deriving DecidableEq

structure FetchState where
  cache : List (String × String)
  limiter : RateLimiter
  waits : ℕ
  requests : ℕ
  cacheHits : ℕ
  cacheMisses : ℕ
deriving DecidableEq

/-- `get_cache_key`: md5 of the URL; modelled as the identity since the
code only ever compares keys for equality. -/
def get_cache_key (url : String) : String := url

/-- The `for i in range(retries)` retry loop of `fetch_page`: `fuel` is
the number of attempts left, `i` the 0-based attempt index.  `rand n` is
the `random.uniform(0, 1)` draw and `clock n` the `time.time()` reading
taken around request number `n`. -/
def fetch_loop (net : ℕ → HttpResponse) (rand clock : ℕ → ℚ) (key : String)
    (base_delay : ℚ) (use_cache : Bool) :
    ℕ → ℕ → FetchState → Option String × FetchState
  | 0, _, s => (none, s)
  | fuel + 1, i, s =>
    match net s.requests with
    | HttpResponse.ok body =>
      (some body,
        { s with
          requests := s.requests + 1
          cache := if use_cache then dictSet s.cache key body else s.cache
          limiter := s.limiter.report_success })
    | HttpResponse.connError =>
      -- `time.sleep(base_delay * (i + 1))`, then retry
      fetch_loop net rand clock key base_delay use_cache fuel (i + 1)
        { s with requests := s.requests + 1 }
    | HttpResponse.httpError status ra =>
      if status = 429 then
        fetch_loop net rand clock key base_delay use_cache fuel (i + 1)
          { s with
            requests := s.requests + 1
            limiter := s.limiter.report_429 (clock s.requests)
              (some (min
                (match ra with
                 | some n => (n : ℚ) + rand s.requests
                 | none => base_delay * 2 ^ i + rand s.requests)
                300)) }
      else
        -- any other HTTP error: non-retriable, return None at once
        (none, { s with requests := s.requests + 1 })

/-- `fetch_page(url, session, retries, base_delay, use_cache)`: cache
lookup first (a hit returns immediately, no wait and no request), then
one `rate_limiter.wait()` and the retry loop. -/
def fetch_page (net : ℕ → HttpResponse) (rand clock : ℕ → ℚ) (url : String)
    (retries : ℕ) (base_delay : ℚ) (use_cache : Bool) (s : FetchState) :
    Option String × FetchState :=
  match use_cache, dictGet s.cache (get_cache_key url) with
  | true, some v => (some v, { s with cacheHits := s.cacheHits + 1 })
  | true, none =>
    fetch_loop net rand clock (get_cache_key url) base_delay true retries 0
      { s with cacheMisses := s.cacheMisses + 1, waits := s.waits + 1 }
  | false, _ =>
    fetch_loop net rand clock (get_cache_key url) base_delay false retries 0
      { s with cacheMisses := s.cacheMisses + 1, waits := s.waits + 1 }

end Scrape

namespace Scrape

/-! ### Lemmas about the dict primitives. -/

theorem dictGet_nil {K V : Type} [DecidableEq K] (k : K) :
    dictGet ([] : List (K × V)) k = none := rfl

theorem dictGet_cons {K V : Type} [DecidableEq K] (a : K) (b : V)
    (d : List (K × V)) (k : K) :
    dictGet ((a, b) :: d) k = if a = k then some b else dictGet d k := by
  by_cases h : a = k
  · simp [dictGet, List.find?_cons_of_pos, h]
  · simp [dictGet, List.find?_cons_of_neg, h]

theorem dictGet_isSome_iff {K V : Type} [DecidableEq K] (d : List (K × V))
    (k : K) : (dictGet d k).isSome ↔ k ∈ d.map Prod.fst := by
  induction d with
  | nil => simp [dictGet_nil]
  | cons p d ih =>
    obtain ⟨a, b⟩ := p
    rw [dictGet_cons]
    by_cases h : a = k
    · subst h
      simp
    · rw [if_neg h]
      simp only [List.map_cons, List.mem_cons]
      constructor
      · intro hs
        exact Or.inr (ih.mp hs)
      · intro hs
        rcases hs with hs | hs
        · exact absurd hs.symm h
        · exact ih.mpr hs

theorem dictGet_eq_none_iff {K V : Type} [DecidableEq K] (d : List (K × V))
    (k : K) : dictGet d k = none ↔ ¬ k ∈ d.map Prod.fst := by
  rw [← dictGet_isSome_iff, Option.isSome_iff_ne_none]
  tauto

theorem dictSet_of_not_mem {K V : Type} [DecidableEq K] {d : List (K × V)}
    {k : K} (v : V) (h : ¬ k ∈ d.map Prod.fst) :
    dictSet d k v = d ++ [(k, v)] := by
  have hf : d.find? (fun p => decide (p.1 = k)) = none := by
    rw [List.find?_eq_none]
    intro p hp
    simp only [decide_eq_true_eq]
    intro hpk
    exact h (hpk ▸ List.mem_map_of_mem Prod.fst hp)
  simp [dictSet, hf]

theorem dictSet_of_mem {K V : Type} [DecidableEq K] {d : List (K × V)}
    {k : K} (v : V) (h : k ∈ d.map Prod.fst) :
    dictSet d k v = d.map (fun p => if p.1 = k then (k, v) else p) := by
  have hf : (d.find? (fun p => decide (p.1 = k))).isSome = true := by
    rw [List.find?_isSome]
    obtain ⟨p, hp, hpk⟩ := List.mem_map.mp h
    exact ⟨p, hp, by simp [hpk]⟩
  simp [dictSet, hf]

theorem dictGet_update_self {K V : Type} [DecidableEq K] {d : List (K × V)}
    {k : K} (v : V) (h : k ∈ d.map Prod.fst) :
    dictGet (d.map (fun p => if p.1 = k then (k, v) else p)) k = some v := by
  induction d with
  | nil => simp at h
  | cons p d ih =>
    obtain ⟨a, b⟩ := p
    rw [List.map_cons]
    by_cases ha : a = k
    · subst ha
      have hhead : (if (a, b).1 = a then (a, v) else (a, b)) = (a, v) := by
        simp
      rw [hhead, dictGet_cons, if_pos rfl]
    · have hhead : (if (a, b).1 = k then (k, v) else (a, b)) = (a, b) := by
        simp [ha]
      rw [hhead, dictGet_cons, if_neg ha]
      simp only [List.map_cons, List.mem_cons] at h
      rcases h with hk | hk
      · exact absurd hk.symm ha
      · exact ih hk

theorem dictGet_append {K V : Type} [DecidableEq K] (d e : List (K × V))
    (k : K) : dictGet (d ++ e) k = (dictGet d k).or (dictGet e k) := by
  induction d with
  | nil => simp [dictGet_nil]
  | cons p d ih =>
    obtain ⟨a, b⟩ := p
    rw [List.cons_append, dictGet_cons, dictGet_cons]
    by_cases ha : a = k
    · rw [if_pos ha, if_pos ha]
      rfl
    · rw [if_neg ha, if_neg ha, ih]

theorem dictGet_append_right {K V : Type} [DecidableEq K] {d : List (K × V)}
    (e : List (K × V)) {k : K} (h : ¬ k ∈ d.map Prod.fst) :
    dictGet (d ++ e) k = dictGet e k := by
  rw [dictGet_append, (dictGet_eq_none_iff d k).mpr h]
  rfl

theorem dictGet_dictSet_self {K V : Type} [DecidableEq K] (d : List (K × V))
    (k : K) (v : V) : dictGet (dictSet d k v) k = some v := by
  by_cases h : k ∈ d.map Prod.fst
  · rw [dictSet_of_mem v h]
    exact dictGet_update_self v h
  · rw [dictSet_of_not_mem v h, dictGet_append_right _ h, dictGet_cons]
    simp

theorem dictGet_dictSet_ne {K V : Type} [DecidableEq K] (d : List (K × V))
    {k q : K} (v : V) (h : q ≠ k) :
    dictGet (dictSet d k v) q = dictGet d q := by
  by_cases hm : k ∈ d.map Prod.fst
  · rw [dictSet_of_mem v hm]
    clear hm
    induction d with
    | nil => rfl
    | cons p d ih =>
      obtain ⟨a, b⟩ := p
      rw [List.map_cons]
      by_cases ha : a = k
      · subst ha
        have hhead : (if (a, b).1 = a then (a, v) else (a, b)) = (a, v) := by
          simp
        rw [hhead, dictGet_cons, dictGet_cons,
          if_neg (fun hh : a = q => h hh.symm),
          if_neg (fun hh : a = q => h hh.symm), ih]
      · have hhead : (if (a, b).1 = k then (k, v) else (a, b)) = (a, b) := by
          simp [ha]
        rw [hhead, dictGet_cons, dictGet_cons, ih]
  · rw [dictSet_of_not_mem v hm, dictGet_append, dictGet_cons,
      if_neg (fun hh : k = q => h hh.symm), dictGet_nil]
    cases dictGet d q <;> rfl

theorem dictSet_map_fst_of_mem {K V : Type} [DecidableEq K]
    {d : List (K × V)} {k : K} (v : V) (h : k ∈ d.map Prod.fst) :
    (dictSet d k v).map Prod.fst = d.map Prod.fst := by
  rw [dictSet_of_mem v h, List.map_map]
  apply List.map_congr_left
  intro p _
  by_cases ha : p.1 = k
  · simp [ha]
  · simp [ha]

theorem dictSet_map_fst_of_not_mem {K V : Type} [DecidableEq K]
    {d : List (K × V)} {k : K} (v : V) (h : ¬ k ∈ d.map Prod.fst) :
    (dictSet d k v).map Prod.fst = d.map Prod.fst ++ [k] := by
  rw [dictSet_of_not_mem v h]
  simp

theorem dictPop_cons {K V : Type} [DecidableEq K] (a : K) (b : V)
    (d : List (K × V)) (k : K) :
    dictPop ((a, b) :: d) k =
      if a = k then dictPop d k else (a, b) :: dictPop d k := by
  by_cases ha : a = k
  · simp [dictPop, List.filter_cons, ha]
  · simp [dictPop, List.filter_cons, ha]

theorem dictPop_map_fst {K V : Type} [DecidableEq K] (d : List (K × V))
    (k : K) :
    (dictPop d k).map Prod.fst = (d.map Prod.fst).filter (fun x => x ≠ k) := by
  induction d with
  | nil => rfl
  | cons p d ih =>
    obtain ⟨a, b⟩ := p
    rw [dictPop_cons, List.map_cons, List.filter_cons]
    by_cases ha : a = k
    · rw [if_pos ha, if_neg (by simp [ha])]
      exact ih
    · rw [if_neg ha, if_pos (by simp [ha]), List.map_cons, ih]

theorem dictGet_dictPop_self {K V : Type} [DecidableEq K] (d : List (K × V))
    (k : K) : dictGet (dictPop d k) k = none := by
  rw [dictGet_eq_none_iff, dictPop_map_fst]
  simp

theorem dictGet_dictPop_ne {K V : Type} [DecidableEq K] (d : List (K × V))
    {k q : K} (h : q ≠ k) : dictGet (dictPop d k) q = dictGet d q := by
  induction d with
  | nil => rfl
  | cons p d ih =>
    obtain ⟨a, b⟩ := p
    rw [dictPop_cons, dictGet_cons]
    by_cases ha : a = k
    · rw [if_pos ha, if_neg (fun hh : a = q => h (hh ▸ ha)), ih]
    · rw [if_neg ha, dictGet_cons, ih]

theorem dictGet_map_pair {K V : Type} [DecidableEq K] (f : K → V)
    {l : List K} {k : K} (h : k ∈ l) :
    dictGet (l.map (fun x => (x, f x))) k = some (f k) := by
  induction l with
  | nil => simp at h
  | cons a l ih =>
    rw [List.map_cons, dictGet_cons]
    by_cases ha : a = k
    · subst ha
      simp
    · rw [if_neg ha]
      rcases List.mem_cons.mp h with hk | hk
      · exact absurd hk.symm ha
      · exact ih hk

theorem dictSet_length_of_mem {K V : Type} [DecidableEq K]
    {d : List (K × V)} {k : K} (v : V) (h : k ∈ d.map Prod.fst) :
    (dictSet d k v).length = d.length := by
  rw [dictSet_of_mem v h]
  simp

theorem dictSet_length_of_not_mem {K V : Type} [DecidableEq K]
    {d : List (K × V)} {k : K} (v : V) (h : ¬ k ∈ d.map Prod.fst) :
    (dictSet d k v).length = d.length + 1 := by
  rw [dictSet_of_not_mem v h]
  simp

/-! ### Lemmas about `LimitedCache`. -/

theorem filter_ne_eq_erase {K : Type} [DecidableEq K] (l : List K) (a : K)
    (h : l.Nodup) : l.filter (fun x => x ≠ a) = l.erase a := by
  rw [List.Nodup.erase_eq_filter h a]
  apply List.filter_congr
  intro x _
  by_cases hx : x = a <;> simp [hx]

theorem LimitedCache.set_eq_of_safe {K V : Type} [DecidableEq K]
    (c : LimitedCache K V) (k : K) (v : V)
    (h : ¬ ((dictGet c.cache k).isNone = true ∧
            c.max_size ≤ c.cache.length)) :
    c.set k v =
      { c with cache := dictSet c.cache k v
               access_order := c.access_order.erase k ++ [k] } := by
  simp only [LimitedCache.set, LimitedCache.evictIfFull, if_neg h]

theorem LimitedCache.set_eq_of_evict_nil {K V : Type} [DecidableEq K]
    (c : LimitedCache K V) (k : K) (v : V)
    (h : (dictGet c.cache k).isNone = true ∧ c.max_size ≤ c.cache.length)
    (ho : c.access_order = []) :
    c.set k v =
      { c with cache := dictSet c.cache k v
               access_order := [].erase k ++ [k] } := by
  simp only [LimitedCache.set, LimitedCache.evictIfFull, if_pos h, ho]

theorem LimitedCache.set_eq_of_evict {K V : Type} [DecidableEq K]
    (c : LimitedCache K V) (k : K) (v : V) (old : K) (rest : List K)
    (h : (dictGet c.cache k).isNone = true ∧ c.max_size ≤ c.cache.length)
    (ho : c.access_order = old :: rest) :
    c.set k v =
      { c with cache := dictSet (dictPop c.cache old) k v
               access_order := rest.erase k ++ [k] } := by
  simp only [LimitedCache.set, LimitedCache.evictIfFull, if_pos h, ho]

theorem LimitedCache.set_max_size {K V : Type} [DecidableEq K]
    (c : LimitedCache K V) (k : K) (v : V) :
    (c.set k v).max_size = c.max_size := by
  by_cases hg : (dictGet c.cache k).isNone = true ∧
      c.max_size ≤ c.cache.length
  · cases ho : c.access_order with
    | nil => rw [LimitedCache.set_eq_of_evict_nil c k v hg ho]
    | cons old rest => rw [LimitedCache.set_eq_of_evict c k v old rest hg ho]
  · rw [LimitedCache.set_eq_of_safe c k v hg]

theorem LCInv_set {K V : Type} [DecidableEq K] (c : LimitedCache K V)
    (k : K) (v : V) (hinv : LCInv c) : LCInv (c.set k v) := by
  obtain ⟨hnd, hperm⟩ := hinv
  by_cases hg : (dictGet c.cache k).isNone = true ∧
      c.max_size ≤ c.cache.length
  · have hknot : ¬ k ∈ c.cache.map Prod.fst := by
      rw [← dictGet_eq_none_iff, ← Option.isNone_iff_eq_none]
      exact hg.1
    have hkorder : ¬ k ∈ c.access_order := fun hh =>
      hknot (hperm.mem_iff.mpr hh)
    cases ho : c.access_order with
    | nil =>
      rw [LimitedCache.set_eq_of_evict_nil c k v hg ho]
      have hcache : c.cache = [] := by
        have := (ho ▸ hperm).eq_nil
        exact List.map_eq_nil_iff.mp this
      constructor
      · simp
      · rw [hcache, dictSet_of_not_mem v (by simp)]
        simp
    | cons old rest =>
      rw [LimitedCache.set_eq_of_evict c k v old rest hg ho]
      have hndk : (c.cache.map Prod.fst).Nodup := hperm.symm.nodup (ho ▸ hnd)
      have holdmem : old ∈ c.cache.map Prod.fst :=
        hperm.mem_iff.mpr (ho ▸ List.mem_cons_self old rest)
      have hkold : ¬ k ∈ (dictPop c.cache old).map Prod.fst := by
        rw [dictPop_map_fst]
        intro hk
        exact hknot (List.mem_of_mem_filter hk)
      have hrest_nd : rest.Nodup := (List.nodup_cons.mp (ho ▸ hnd)).2
      have hkrest : ¬ k ∈ rest := fun hh =>
        hkorder (ho ▸ List.mem_cons_of_mem old hh)
      have hp1 : ((dictPop c.cache old).map Prod.fst).Perm rest := by
        rw [dictPop_map_fst, filter_ne_eq_erase _ _ hndk]
        have h2 : (c.access_order.erase old).Perm rest := by
          rw [ho, List.erase_cons_head]
        exact (hperm.erase old).trans h2
      constructor
      · rw [List.erase_of_not_mem hkrest]
        exact (List.perm_append_singleton k rest).symm.nodup
          (List.nodup_cons.mpr ⟨hkrest, hrest_nd⟩)
      · rw [dictSet_map_fst_of_not_mem v hkold, List.erase_of_not_mem hkrest]
        exact hp1.append_right [k]
  · rw [LimitedCache.set_eq_of_safe c k v hg]
    by_cases hk : k ∈ c.cache.map Prod.fst
    · have hkorder : k ∈ c.access_order := hperm.mem_iff.mp hk
      have hoe : (c.access_order.erase k ++ [k]).Perm c.access_order :=
        (List.perm_append_singleton k _).trans
          (List.perm_cons_erase hkorder).symm
      constructor
      · exact hoe.symm.nodup hnd
      · rw [dictSet_map_fst_of_mem v hk]
        exact hperm.trans hoe.symm
    · have hkorder : ¬ k ∈ c.access_order := fun hh =>
        hk (hperm.mem_iff.mpr hh)
      rw [List.erase_of_not_mem hkorder]
      constructor
      · exact (List.perm_append_singleton k _).symm.nodup
          (List.nodup_cons.mpr ⟨hkorder, hnd⟩)
      · rw [dictSet_map_fst_of_not_mem v hk]
        exact hperm.append_right [k]

theorem LimitedCache.set_length_le {K V : Type} [DecidableEq K]
    (c : LimitedCache K V) (k : K) (v : V) (hinv : LCInv c)
    (hm : 1 ≤ c.max_size) (hlen : c.cache.length ≤ c.max_size) :
    (c.set k v).cache.length ≤ c.max_size := by
  obtain ⟨hnd, hperm⟩ := hinv
  by_cases hg : (dictGet c.cache k).isNone = true ∧
      c.max_size ≤ c.cache.length
  · have hknot : ¬ k ∈ c.cache.map Prod.fst := by
      rw [← dictGet_eq_none_iff, ← Option.isNone_iff_eq_none]
      exact hg.1
    cases ho : c.access_order with
    | nil =>
      rw [LimitedCache.set_eq_of_evict_nil c k v hg ho]
      have hcache : c.cache = [] :=
        List.map_eq_nil_iff.mp (ho ▸ hperm).eq_nil
      simp only [hcache]
      rw [dictSet_of_not_mem v (by simp)]
      simpa using hm
    | cons old rest =>
      rw [LimitedCache.set_eq_of_evict c k v old rest hg ho]
      have hkold : ¬ k ∈ (dictPop c.cache old).map Prod.fst := by
        rw [dictPop_map_fst]
        intro hk
        exact hknot (List.mem_of_mem_filter hk)
      rw [dictSet_length_of_not_mem v hkold]
      have hle : ((dictPop c.cache old).map Prod.fst).length + 1 ≤
          c.max_size := by
        have hndk : (c.cache.map Prod.fst).Nodup :=
          hperm.symm.nodup (ho ▸ hnd)
        have hp1 : ((dictPop c.cache old).map Prod.fst).Perm rest := by
          rw [dictPop_map_fst, filter_ne_eq_erase _ _ hndk]
          exact (hperm.erase old).trans
            (by rw [ho, List.erase_cons_head])
        have h1 : (dictPop c.cache old).length = rest.length := by
          have := hp1.length_eq
          simpa using this
        have h2 : c.cache.length = rest.length + 1 := by
          have := hperm.length_eq
          rw [ho] at this
          simpa using this
        have := hp1.length_eq
        simp only [List.length_map] at this ⊢
        omega
      simpa using hle
  · push_neg at hg
    by_cases hk : k ∈ c.cache.map Prod.fst
    · rw [LimitedCache.set_eq_of_safe c k v (by push_neg; exact hg)]
      simpa [dictSet_length_of_mem v hk] using hlen
    · have hnone : (dictGet c.cache k).isNone = true := by
        rw [Option.isNone_iff_eq_none, dictGet_eq_none_iff]
        exact hk
      have hlt : c.cache.length < c.max_size := by
        have := hg hnone
        omega
      rw [LimitedCache.set_eq_of_safe c k v (by push_neg; exact hg)]
      simpa [dictSet_length_of_not_mem v hk] using hlt

theorem runOps_max_size {K V : Type} [DecidableEq K] (ops : List (CacheOp K V))
    (c : LimitedCache K V) : (runOps c ops).max_size = c.max_size := by
  induction ops generalizing c with
  | nil => rfl
  | cons op rest ih =>
    cases op with
    | get _ => exact ih c
    | set k v => rw [runOps, ih, LimitedCache.set_max_size]

theorem runOps_length_le {K V : Type} [DecidableEq K]
    (ops : List (CacheOp K V)) (c : LimitedCache K V) (m : ℕ)
    (hmax : c.max_size = m) (hinv : LCInv c) (hm : 1 ≤ m)
    (hlen : c.cache.length ≤ m) :
    (runOps c ops).cache.length ≤ m := by
  induction ops generalizing c with
  | nil => exact hlen
  | cons op rest ih =>
    cases op with
    | get _ => exact ih c hmax hinv hlen
    | set k v =>
      rw [runOps]
      refine ih (c.set k v) ?_ (LCInv_set c k v hinv) ?_
      · rw [LimitedCache.set_max_size, hmax]
      · have := LimitedCache.set_length_le c k v hinv (hmax ▸ hm)
          (hmax ▸ hlen)
        rw [hmax] at this
        exact this

theorem LCInv_empty {K V : Type} [DecidableEq K] (m : ℕ) :
    LCInv (LimitedCache.empty K V m) :=
  ⟨List.nodup_nil, List.Perm.refl []⟩

theorem LimitedCache.get_set_of_safe {K V : Type} [DecidableEq K]
    (c : LimitedCache K V) (k q : K) (v : V) (hq : (c.get q).isSome = true)
    (hsafe : (dictGet c.cache k).isSome = true ∨
      c.cache.length < c.max_size) :
    ((c.set k v).get q).isSome = true := by
  have hg : ¬ ((dictGet c.cache k).isNone = true ∧
      c.max_size ≤ c.cache.length) := by
    rintro ⟨h1, h2⟩
    rcases hsafe with h | h
    · rw [Option.isNone_iff_eq_none] at h1
      rw [h1] at h
      simp at h
    · omega
  rw [LimitedCache.set_eq_of_safe c k v hg]
  show (dictGet (dictSet c.cache k v) q).isSome = true
  by_cases hqk : q = k
  · subst hqk
    rw [dictGet_dictSet_self]
    rfl
  · rw [dictGet_dictSet_ne c.cache v hqk]
    exact hq

theorem safeOps_preserves {K V : Type} [DecidableEq K]
    (ops : List (CacheOp K V)) (c : LimitedCache K V) (q : K)
    (hq : (c.get q).isSome = true) (hs : safeOps c ops = true) :
    ((runOps c ops).get q).isSome = true := by
  induction ops generalizing c with
  | nil => exact hq
  | cons op rest ih =>
    cases op with
    | get _ => exact ih c hq (by simpa [safeOps] using hs)
    | set k v =>
      simp only [safeOps, Bool.and_eq_true, Bool.or_eq_true,
        decide_eq_true_eq] at hs
      obtain ⟨h1, h2⟩ := hs
      exact ih (c.set k v) (LimitedCache.get_set_of_safe c k q v hq h1) h2

/-! ### Helper lemmas about `report_success` iteration (for C6). -/

theorem report_success_base (s : RateLimiter) :
    s.report_success.base_delay = s.base_delay := by
  unfold RateLimiter.report_success
  split <;> rfl

theorem report_success_delay_le (s : RateLimiter) (hb : 0 ≤ s.base_delay) :
    s.report_success.current_delay ≤ s.current_delay := by
  unfold RateLimiter.report_success
  split
  case isTrue h =>
    have hd : s.base_delay < s.current_delay := h.2
    have hpos : 0 ≤ s.current_delay := le_of_lt (lt_of_le_of_lt hb hd)
    simp only
    apply max_le (le_of_lt hd)
    nlinarith
  case isFalse h => simp

theorem report_success_ge_base (s : RateLimiter)
    (h : s.base_delay ≤ s.current_delay) :
    s.base_delay ≤ s.report_success.current_delay := by
  unfold RateLimiter.report_success
  split
  · exact le_max_left _ _
  · simpa using h

theorem report_success_iter_base (s : RateLimiter) (n : ℕ) :
    ((RateLimiter.report_success)^[n] s).base_delay = s.base_delay := by
  induction n generalizing s with
  | zero => rfl
  | succ m ih =>
    rw [Function.iterate_succ_apply, ih, report_success_base]

theorem report_success_iter_ge_base (s : RateLimiter) (n : ℕ)
    (h : s.base_delay ≤ s.current_delay) :
    s.base_delay ≤ ((RateLimiter.report_success)^[n] s).current_delay := by
  induction n generalizing s with
  | zero => simpa using h
  | succ m ih =>
    rw [Function.iterate_succ_apply]
    have h1 : s.report_success.base_delay ≤ s.report_success.current_delay := by
      rw [report_success_base]
      exact report_success_ge_base s h
    have := ih s.report_success h1
    rwa [report_success_base] at this

theorem report_success_iter_delay_le (s : RateLimiter) (n : ℕ)
    (hb : 0 ≤ s.base_delay) :
    ((RateLimiter.report_success)^[n] s).current_delay ≤ s.current_delay := by
  induction n generalizing s with
  | zero => simp
  | succ m ih =>
    rw [Function.iterate_succ_apply]
    have hb1 : 0 ≤ s.report_success.base_delay := by
      rw [report_success_base]; exact hb
    exact le_trans (ih s.report_success hb1) (report_success_delay_le s hb)

theorem report_success_iter_strict (n : ℕ) (s : RateLimiter)
    (hb : 0 ≤ s.base_delay) (hd : s.base_delay < s.current_delay)
    (hcnt : 10 ≤ s.success_count + n) (hn : 1 ≤ n) :
    ((RateLimiter.report_success)^[n] s).current_delay < s.current_delay := by
  induction n generalizing s with
  | zero => omega
  | succ m ih =>
    rw [Function.iterate_succ_apply]
    by_cases htrig : 10 ≤ s.success_count + 1
    · -- the decay fires on this call
      have hstep : s.report_success.current_delay < s.current_delay := by
        unfold RateLimiter.report_success
        rw [if_pos ⟨htrig, hd⟩]
        have hpos : 0 < s.current_delay := lt_of_le_of_lt hb hd
        apply max_lt hd
        nlinarith
      have hb1 : 0 ≤ s.report_success.base_delay := by
        rw [report_success_base]; exact hb
      exact lt_of_le_of_lt
        (report_success_iter_delay_le s.report_success m hb1) hstep
    · -- below threshold: the counter increments, the delay is unchanged
      have hstate : s.report_success =
          { s with success_count := s.success_count + 1 } := by
        unfold RateLimiter.report_success
        rw [if_neg]
        intro hcontra
        exact htrig hcontra.1
      have hm : 1 ≤ m := by omega
      have := ih { s with success_count := s.success_count + 1 }
        hb hd (by simp; omega) hm
      rw [hstate]
      simpa using this

/-! ### C1 and C6 -/

/-- C1: the claim states that after `report_429(N)` the current delay is at
least N for every hint N; this fails because the delay is clamped at
`max_delay`.  With the Server My Store defaults (`max_delay = 10`), a hint
of 20 leaves the delay at 10 < 20. -/
theorem C1_counterexample :
    (RateLimiter.mkServer.report_429 0 (some 20)).current_delay < 20 := by
  norm_num [RateLimiter.report_429, RateLimiter.mkServer, min_def]

/-- C1 (amended): after `report_429` with hint N ≥ 0 the current delay is at
least `min N max_delay`; the server hint is honoured (plus a margin of 1)
only up to the `max_delay` cap. -/
theorem C1_amended (s : RateLimiter) (now N : ℚ) (hN : 0 ≤ N)
    (hc : 0 ≤ s.current_delay) (hm : 0 ≤ s.max_delay) :
    min N s.max_delay ≤ (s.report_429 now (some N)).current_delay := by
  simp only [RateLimiter.report_429]
  by_cases h : N ≠ 0
  · rw [if_pos h]
    simp only
    apply le_min
    · exact le_trans (min_le_right _ _) le_rfl
    · exact le_trans (min_le_left _ _) (by linarith)
  · rw [if_neg h]
    push_neg at h
    subst h
    simp only
    have h0 : (0 : ℚ) ≤ min s.max_delay (s.current_delay * 2) := by
      apply le_min hm
      linarith
    calc min 0 s.max_delay ≤ 0 := min_le_left _ _
      _ ≤ _ := h0

/-- C1 (amended) witness: Server My Store limiter, hint 5:
`min 5 10 = 5 ≤ min 10 6 = 6`. -/
theorem C1_amended_witness :
    (0 : ℚ) ≤ 5 ∧ (0 : ℚ) ≤ RateLimiter.mkServer.current_delay ∧
    (0 : ℚ) ≤ RateLimiter.mkServer.max_delay ∧
    min 5 RateLimiter.mkServer.max_delay ≤
      (RateLimiter.mkServer.report_429 0 (some 5)).current_delay :=
  ⟨by norm_num, by norm_num [RateLimiter.mkServer],
    by norm_num [RateLimiter.mkServer],
    C1_amended RateLimiter.mkServer 0 5 (by norm_num)
      (by norm_num [RateLimiter.mkServer])
      (by norm_num [RateLimiter.mkServer])⟩

/-- C6: from any limiter state whose current delay sits strictly above the
base delay (with a nonnegative base), 10 consecutive `report_success` calls
strictly decrease the current delay, and no number of `report_success`
calls ever takes it below `base_delay`. -/
theorem C6_theorem (s : RateLimiter) (hb : 0 ≤ s.base_delay)
    (hd : s.base_delay < s.current_delay) :
    ((RateLimiter.report_success)^[10] s).current_delay < s.current_delay ∧
    ∀ n : ℕ, s.base_delay ≤
      ((RateLimiter.report_success)^[n] s).current_delay := by
  constructor
  · exact report_success_iter_strict 10 s hb hd (by omega) (by omega)
  · intro n
    exact report_success_iter_ge_base s n (le_of_lt hd)

/-- C6 witness: base 1, current delay 2, fresh counter. -/
theorem C6_witness :
    (0 : ℚ) ≤ (RateLimiter.mk 1 10 2 0 0).base_delay ∧
    (RateLimiter.mk 1 10 2 0 0).base_delay <
      (RateLimiter.mk 1 10 2 0 0).current_delay ∧
    (((RateLimiter.report_success)^[10]
        (RateLimiter.mk 1 10 2 0 0)).current_delay <
      (RateLimiter.mk 1 10 2 0 0).current_delay ∧
    ∀ n : ℕ, (RateLimiter.mk 1 10 2 0 0).base_delay ≤
      ((RateLimiter.report_success)^[n]
        (RateLimiter.mk 1 10 2 0 0)).current_delay) :=
  ⟨by norm_num, by norm_num,
    C6_theorem (RateLimiter.mk 1 10 2 0 0) (by norm_num) (by norm_num)⟩

/-! ### C9 and C10 -/

/-- C9: the claim states that an entry once stored in the response cache is
never evicted by later get/set traffic in the same run; `LimitedCache`
refutes it: with `max_size = 1`, storing key 0 and then key 1 evicts key 0. -/
theorem C9_counterexample :
    (((LimitedCache.empty ℕ ℕ 1).set 0 10).get 0) = some 10 ∧
    ((((LimitedCache.empty ℕ ℕ 1).set 0 10).set 1 20).get 0) = none := by
  decide

/-- C9 (amended): a stored entry survives every later sequence of get/set
operations in which no `set` introduces a brand-new key while the cache is
full; `get` never evicts, and only the overflowing `set` of a new key does. -/
theorem C9_amended (c : LimitedCache ℕ ℕ) (ops : List (CacheOp ℕ ℕ)) (q : ℕ)
    (hq : (c.get q).isSome = true) (hs : safeOps c ops = true) :
    ((runOps c ops).get q).isSome = true :=
  safeOps_preserves ops c q hq hs

/-- C9 (amended) witness: key 5 stored, then an overwrite of key 5, a get,
and an insert of key 6 into the non-full cache; key 5 is still present. -/
theorem C9_amended_witness :
    ((((LimitedCache.empty ℕ ℕ 2).set 5 1).get 5).isSome = true) ∧
    (safeOps ((LimitedCache.empty ℕ ℕ 2).set 5 1)
      [CacheOp.set 5 2, CacheOp.get 5, CacheOp.set 6 3] = true) ∧
    ((runOps ((LimitedCache.empty ℕ ℕ 2).set 5 1)
      [CacheOp.set 5 2, CacheOp.get 5, CacheOp.set 6 3]).get 5).isSome = true :=
  ⟨by decide, by decide,
    C9_amended ((LimitedCache.empty ℕ ℕ 2).set 5 1)
      [CacheOp.set 5 2, CacheOp.get 5, CacheOp.set 6 3] 5
      (by decide) (by decide)⟩

/-- C10: for every `LimitedCache` with `max_size ≥ 1`, (a) no sequence of
get/set operations from the empty cache ever pushes the entry count above
`max_size`, and (b) a `set` of a new key into a full cache evicts exactly
the key at the front of the access-order queue: that key is gone, the new
key is present, and every other key is untouched. -/
theorem C10_theorem (m : ℕ) (hm : 1 ≤ m) (ops : List (CacheOp ℕ ℕ)) :
    (runOps (LimitedCache.empty ℕ ℕ m) ops).cache.length ≤ m ∧
    (∀ (c : LimitedCache ℕ ℕ) (k v old : ℕ) (rest : List ℕ),
      LCInv c → c.get k = none → c.max_size ≤ c.cache.length →
      c.access_order = old :: rest →
      (c.set k v).get old = none ∧ (c.set k v).get k = some v ∧
      ∀ q, q ≠ old → q ≠ k → (c.set k v).get q = c.get q) := by
  constructor
  · exact runOps_length_le ops (LimitedCache.empty ℕ ℕ m) m rfl
      (LCInv_empty m) hm (by simp [LimitedCache.empty])
  · rintro c k v old rest ⟨hnd, hperm⟩ hget hfull ho
    have hg : (dictGet c.cache k).isNone = true ∧
        c.max_size ≤ c.cache.length :=
      ⟨by rw [Option.isNone_iff_eq_none]; exact hget, hfull⟩
    have holdmem : old ∈ c.cache.map Prod.fst :=
      hperm.mem_iff.mpr (ho ▸ List.mem_cons_self old rest)
    have hknot : ¬ k ∈ c.cache.map Prod.fst := by
      rw [← dictGet_eq_none_iff]
      exact hget
    have hko : old ≠ k := fun hh => hknot (hh ▸ holdmem)
    rw [LimitedCache.set_eq_of_evict c k v old rest hg ho]
    refine ⟨?_, ?_, ?_⟩
    · show dictGet (dictSet (dictPop c.cache old) k v) old = none
      rw [dictGet_dictSet_ne _ v hko, dictGet_dictPop_self]
    · show dictGet (dictSet (dictPop c.cache old) k v) k = some v
      exact dictGet_dictSet_self _ k v
    · intro q hqo hqk
      show dictGet (dictSet (dictPop c.cache old) k v) q = c.get q
      rw [dictGet_dictSet_ne _ v hqk, dictGet_dictPop_ne _ hqo]
      rfl

/-! ### Lemmas about the batch enricher (for C4). -/

theorem filterMap_pair_map_fst {K V : Type} [DecidableEq K]
    (c : LimitedCache K V) (keys : List K) :
    (keys.filterMap (fun k => (dictGet c.cache k).map (fun v => (k, v)))).map
        Prod.fst =
      keys.filter (fun k => (dictGet c.cache k).isSome) := by
  induction keys with
  | nil => rfl
  | cons k ks ih =>
    cases hck : dictGet c.cache k with
    | none => simp [List.filterMap_cons, hck, List.filter_cons, ih]
    | some v => simp [List.filterMap_cons, hck, List.filter_cons, ih]

theorem detailsPass1_go {K V : Type} [DecidableEq K] (c : LimitedCache K V)
    (keys : List K) :
    ∀ (res : List (K × V)) (tf : List K),
      (∀ k ∈ keys, ¬ k ∈ res.map Prod.fst) → keys.Nodup →
      keys.foldl
        (fun acc k =>
          match dictGet c.cache k with
          | some v => (dictSet acc.1 k v, acc.2)
          | none => (acc.1, acc.2 ++ [k]))
        (res, tf) =
      (res ++ keys.filterMap
          (fun k => (dictGet c.cache k).map (fun v => (k, v))),
        tf ++ keys.filter (fun k => (dictGet c.cache k).isNone)) := by
  induction keys with
  | nil =>
    intro res tf _ _
    simp
  | cons k ks ih =>
    intro res tf hfresh hnd
    have hnd' := List.nodup_cons.mp hnd
    rw [List.foldl_cons]
    cases hck : dictGet c.cache k with
    | some v =>
      have hfk : ¬ k ∈ res.map Prod.fst :=
        hfresh k (List.mem_cons_self k ks)
      have hfresh' : ∀ q ∈ ks, ¬ q ∈ (res ++ [(k, v)]).map Prod.fst := by
        intro q hq hmem
        rw [List.map_append] at hmem
        rcases List.mem_append.mp hmem with hmem | hmem
        · exact hfresh q (List.mem_cons_of_mem k hq) hmem
        · simp only [List.map_cons, List.map_nil, List.mem_singleton] at hmem
          exact hnd'.1 (hmem ▸ hq)
      simp only [hck, dictSet_of_not_mem v hfk]
      rw [ih (res ++ [(k, v)]) tf hfresh' hnd'.2]
      simp [List.filterMap_cons, hck, List.filter_cons]
    | none =>
      simp only [hck]
      rw [ih res (tf ++ [k]) (fun q hq => hfresh q (List.mem_cons_of_mem k hq))
        hnd'.2]
      simp [List.filterMap_cons, hck, List.filter_cons]

theorem detailsPass1_spec {K V : Type} [DecidableEq K] (c : LimitedCache K V)
    (keys : List K) (hnd : keys.Nodup) :
    detailsPass1 c keys =
      (keys.filterMap (fun k => (dictGet c.cache k).map (fun v => (k, v))),
       keys.filter (fun k => (dictGet c.cache k).isNone)) := by
  have h := detailsPass1_go c keys [] [] (by simp) hnd
  simpa [detailsPass1] using h

theorem detailsPass2_results {K V : Type} [DecidableEq K] (empty : V)
    (worker : K → FetchResult V) :
    ∀ (tf : List K) (c : LimitedCache K V) (res : List (K × V)),
      (∀ k ∈ tf, ¬ k ∈ res.map Prod.fst) → tf.Nodup →
      (detailsPass2 empty worker c res tf).1 =
        res ++ tf.map (fun k => (k, workerOut empty worker k)) := by
  intro tf
  induction tf with
  | nil =>
    intro c res _ _
    simp [detailsPass2]
  | cons k ks ih =>
    intro c res hfresh hnd
    have hfk : ¬ k ∈ res.map Prod.fst := hfresh k (List.mem_cons_self k ks)
    have hnd' := List.nodup_cons.mp hnd
    have hfresh' : ∀ w : V, ∀ q ∈ ks,
        ¬ q ∈ (res ++ [(k, w)]).map Prod.fst := by
      intro w q hq hmem
      rw [List.map_append] at hmem
      rcases List.mem_append.mp hmem with hmem | hmem
      · exact hfresh q (List.mem_cons_of_mem k hq) hmem
      · simp only [List.map_cons, List.map_nil, List.mem_singleton] at hmem
        exact hnd'.1 (hmem ▸ hq)
    cases hw : worker k with
    | ok v =>
      simp only [detailsPass2, hw]
      rw [dictSet_of_not_mem v hfk,
        ih (c.set k v) (res ++ [(k, v)]) (hfresh' v) hnd'.2]
      simp [workerOut, hw]
    | exn =>
      simp only [detailsPass2, hw]
      rw [dictSet_of_not_mem empty hfk,
        ih (c.set k empty) (res ++ [(k, empty)]) (hfresh' empty) hnd'.2]
      simp [workerOut, hw]

theorem batch_results_eq {K V : Type} [DecidableEq K] (empty : V)
    (worker : K → FetchResult V) (c : LimitedCache K V) (keys : List K)
    (hnd : keys.Nodup) :
    (batch_fetch_details empty worker c keys).1 =
      keys.filterMap (fun k => (dictGet c.cache k).map (fun v => (k, v))) ++
      (keys.filter (fun k => (dictGet c.cache k).isNone)).map
        (fun k => (k, workerOut empty worker k)) := by
  simp only [batch_fetch_details, detailsPass1_spec c keys hnd]
  apply detailsPass2_results
  · intro k hk hmem
    rw [filterMap_pair_map_fst] at hmem
    have h1 := (List.mem_filter.mp hk).2
    have h2 := (List.mem_filter.mp hmem).2
    cases hck : dictGet c.cache k with
    | none => rw [hck] at h2; simp at h2
    | some v => rw [hck] at h1; simp at h1
  · exact hnd.filter _

theorem batch_keys_perm {K V : Type} [DecidableEq K] (empty : V)
    (worker : K → FetchResult V) (c : LimitedCache K V) (keys : List K)
    (hnd : keys.Nodup) :
    List.Perm ((batch_fetch_details empty worker c keys).1.map Prod.fst)
      keys := by
  rw [batch_results_eq empty worker c keys hnd, List.map_append,
    filterMap_pair_map_fst, List.map_map]
  have hsnd : (Prod.fst ∘ fun k : K => (k, workerOut empty worker k)) =
      fun k => k := rfl
  rw [hsnd, List.map_id']
  have hneg : (keys.filter (fun k => (dictGet c.cache k).isNone)) =
      keys.filter (fun k => !(dictGet c.cache k).isSome) := by
    apply List.filter_congr
    intro k _
    cases dictGet c.cache k <;> rfl
  rw [hneg]
  exact List.filter_append_perm _ keys

/-! ### C4 -/

/-- C4: `batch_fetch_details` on a batch of pairwise-distinct keys returns
exactly one result per submitted key (its key multiset is a permutation of
the input, so there are exactly M results for M items), every uncached key
whose worker raises is mapped to the empty result, and the function is
total — per-item exceptions are absorbed, never propagated. -/
theorem C4_theorem (empty : ℕ) (worker : ℕ → FetchResult ℕ)
    (c : LimitedCache ℕ ℕ) (keys : List ℕ) (hnd : keys.Nodup) :
    List.Perm ((batch_fetch_details empty worker c keys).1.map Prod.fst)
      keys ∧
    (batch_fetch_details empty worker c keys).1.length = keys.length ∧
    ∀ k ∈ keys, c.get k = none → worker k = FetchResult.exn →
      dictGet (batch_fetch_details empty worker c keys).1 k = some empty := by
  refine ⟨batch_keys_perm empty worker c keys hnd, ?_, ?_⟩
  · have h := (batch_keys_perm empty worker c keys hnd).length_eq
    simpa using h
  · intro k hk hget hw
    rw [batch_results_eq empty worker c keys hnd]
    have hnone : dictGet c.cache k = none := hget
    have hnotc : ¬ k ∈ (keys.filterMap
        (fun k => (dictGet c.cache k).map (fun v => (k, v)))).map Prod.fst := by
      rw [filterMap_pair_map_fst]
      intro hmem
      have h2 := (List.mem_filter.mp hmem).2
      rw [hnone] at h2
      simp at h2
    rw [dictGet_append_right _ hnotc,
      dictGet_map_pair (workerOut empty worker)
        (List.mem_filter.mpr ⟨hk, by rw [hnone]; rfl⟩)]
    simp [workerOut, hw]

/-- C4 witness: two distinct keys, the second worker call raising. -/
theorem C4_witness :
    ([1, 2] : List ℕ).Nodup ∧
    (List.Perm ((batch_fetch_details 0
        (fun k => if k = 1 then FetchResult.ok 5 else FetchResult.exn)
        (LimitedCache.empty ℕ ℕ 10) [1, 2]).1.map Prod.fst) [1, 2] ∧
    (batch_fetch_details 0
        (fun k => if k = 1 then FetchResult.ok 5 else FetchResult.exn)
        (LimitedCache.empty ℕ ℕ 10) [1, 2]).1.length = ([1, 2] : List ℕ).length ∧
    ∀ k ∈ ([1, 2] : List ℕ),
      (LimitedCache.empty ℕ ℕ 10).get k = none →
      (if k = 1 then FetchResult.ok 5 else FetchResult.exn) = FetchResult.exn →
      dictGet (batch_fetch_details 0
        (fun k => if k = 1 then FetchResult.ok 5 else FetchResult.exn)
        (LimitedCache.empty ℕ ℕ 10) [1, 2]).1 k = some 0) :=
  ⟨by decide,
    C4_theorem 0 (fun k => if k = 1 then FetchResult.ok 5 else FetchResult.exn)
      (LimitedCache.empty ℕ ℕ 10) [1, 2] (by decide)⟩

/-! ### Lemmas about the CSV sinks (for C5 and C7). -/

theorem countP_rowsOut (fields : List String) (rows : List Row) :
    (rowsOut fields rows).countP isHeaderEntry = 0 := by
  induction rows with
  | nil => rfl
  | cons r rs ih =>
    have hcons : rowsOut fields (r :: rs) =
        CsvEntry.row (serializeRowIgnore fields r) :: rowsOut fields rs := rfl
    rw [hcons, List.countP_cons, ih]
    simp [isHeaderEntry]

theorem writerows_of_subset (fields : List String) (rows : List Row)
    (hk : ∀ r ∈ rows, ∀ kv ∈ r, kv.1 ∈ fields) :
    writerows fields rows = (rowsOut fields rows, true) := by
  induction rows with
  | nil => rfl
  | cons r rs ih =>
    have hall : r.all (fun kv => decide (kv.1 ∈ fields)) = true := by
      rw [List.all_eq_true]
      intro kv hkv
      simp only [decide_eq_true_eq]
      exact hk r (List.mem_cons_self r rs) kv hkv
    have hr : serializeRow fields r = some (serializeRowIgnore fields r) := by
      unfold serializeRow
      rw [if_pos hall]
    have hrs := ih (fun q hq => hk q (List.mem_cons_of_mem r hq))
    simp only [writerows, hr, hrs]
    rfl

/-! ### C5 and C7 -/

/-- C5: the claim says the first append writes a header taken from a
fixed, pre-declared schema rather than from the keys of the first row.
The nontransactional sink does exactly that (`init_csv_files` writes
`parcel_headers`, and its `append_to_csv` appends rows only, adding no
second header), but the `append_to_csv` of the two cited main.py variants
writes `new_rows[0].keys()` as the header: on a fresh file, a first row
with the lone key `unexpected_field` yields the header
`["unexpected_field"]`, which is not the declared parcel schema (the call
completes without raising, flag `true`). -/
theorem C5_theorem :
    append_to_csv none [[("unexpected_field", "v1")]] =
      (some [CsvEntry.header ["unexpected_field"], CsvEntry.row ["v1"]],
        true) ∧
    init_csv_files = [CsvEntry.header parcel_headers] ∧
    (nt_append_to_csv init_csv_files
      [[("unexpected_field", "v1")]]).countP isHeaderEntry = 1 ∧
    ["unexpected_field"] ≠ parcel_headers := by
  refine ⟨rfl, rfl, by decide, by decide⟩

/-- C7: the claim quantifies over arbitrary non-empty, non-overlapping row
lists, but the cited sinks build `csv.DictWriter` with the default
`extrasaction='raise'`: a row carrying a key outside its call's
`new_rows[0].keys()` raises `ValueError` mid-append, so the call crashes
and the read-back file is missing that row.  Here the first call writes
its row, the second call writes one of its two rows and then raises: the
file holds 2 data rows though 3 were submitted across both calls. -/
theorem C7_counterexample :
    append_to_csv (append_to_csv none [[("a", "1")]]).1
        [[("b", "2")], [("b", "3"), ("c", "4")]] =
      (some [CsvEntry.header ["a"], CsvEntry.row ["1"], CsvEntry.row ["2"]],
        false) ∧
    ([CsvEntry.header ["a"], CsvEntry.row ["1"],
        CsvEntry.row ["2"]].countP (fun e => !isHeaderEntry e) ≠
      ([[("a", "1")]] : List Row).length +
        ([[("b", "2")], [("b", "3"), ("c", "4")]] : List Row).length) := by
  refine ⟨rfl, by decide⟩

/-- C7 (amended): for two non-empty, non-overlapping batches whose rows
all keep their keys within their call's header key set
(`new_rows[0].keys()`), no `ValueError` is raised (flag `true`) and
reading the file back yields the header exactly once followed by all rows
of the first call and then all rows of the second; the second call never
writes a second header. -/
theorem C7_amended (rows1 rows2 : List Row) (h1 : rows1 ≠ []) (h2 : rows2 ≠ [])
    (hdisj : ∀ r ∈ rows1, ¬ r ∈ rows2)
    (hk1 : ∀ r ∈ rows1, ∀ kv ∈ r, kv.1 ∈ rowFields rows1)
    (hk2 : ∀ r ∈ rows2, ∀ kv ∈ r, kv.1 ∈ rowFields rows2) :
    append_to_csv (append_to_csv none rows1).1 rows2 =
      (some (CsvEntry.header (rowFields rows1) ::
        (rowsOut (rowFields rows1) rows1 ++ rowsOut (rowFields rows2) rows2)),
       true) ∧
    (CsvEntry.header (rowFields rows1) ::
        (rowsOut (rowFields rows1) rows1 ++
          rowsOut (rowFields rows2) rows2)).countP isHeaderEntry = 1 := by
  obtain ⟨r1, rs1, rfl⟩ : ∃ a l, rows1 = a :: l := by
    cases rows1 with
    | nil => exact absurd rfl h1
    | cons a l => exact ⟨a, l, rfl⟩
  obtain ⟨r2, rs2, rfl⟩ : ∃ a l, rows2 = a :: l := by
    cases rows2 with
    | nil => exact absurd rfl h2
    | cons a l => exact ⟨a, l, rfl⟩
  have hw1 := writerows_of_subset (rowFields (r1 :: rs1)) (r1 :: rs1) hk1
  have hw2 := writerows_of_subset (rowFields (r2 :: rs2)) (r2 :: rs2) hk2
  constructor
  · have e1 : append_to_csv none (r1 :: rs1) =
        (some (CsvEntry.header (rowFields (r1 :: rs1)) ::
          rowsOut (rowFields (r1 :: rs1)) (r1 :: rs1)), true) := by
      simp only [append_to_csv]
      rw [show List.map Prod.fst r1 = rowFields (r1 :: rs1) from rfl, hw1]
      simp
    rw [e1]
    simp only [append_to_csv]
    rw [show List.map Prod.fst r2 = rowFields (r2 :: rs2) from rfl, hw2]
    simp
  · rw [List.countP_cons, List.countP_append, countP_rowsOut, countP_rowsOut]
    simp [isHeaderEntry]

/-- C7 (amended) witness: two one-row batches with distinct single-field
rows, each within its own header key set. -/
theorem C7_amended_witness :
    ([[("a", "1")]] : List Row) ≠ [] ∧
    ([[("b", "2")]] : List Row) ≠ [] ∧
    (∀ r ∈ ([[("a", "1")]] : List Row), ¬ r ∈ ([[("b", "2")]] : List Row)) ∧
    (∀ r ∈ ([[("a", "1")]] : List Row), ∀ kv ∈ r,
      kv.1 ∈ rowFields [[("a", "1")]]) ∧
    (∀ r ∈ ([[("b", "2")]] : List Row), ∀ kv ∈ r,
      kv.1 ∈ rowFields [[("b", "2")]]) ∧
    (append_to_csv (append_to_csv none [[("a", "1")]]).1 [[("b", "2")]] =
      (some (CsvEntry.header (rowFields [[("a", "1")]]) ::
        (rowsOut (rowFields [[("a", "1")]]) [[("a", "1")]] ++
          rowsOut (rowFields [[("b", "2")]]) [[("b", "2")]])), true) ∧
    (CsvEntry.header (rowFields [[("a", "1")]]) ::
        (rowsOut (rowFields [[("a", "1")]]) [[("a", "1")]] ++
          rowsOut (rowFields [[("b", "2")]]) [[("b", "2")]])).countP
      isHeaderEntry = 1) :=
  ⟨by decide, by decide, by decide, by decide, by decide,
    C7_amended [[("a", "1")]] [[("b", "2")]] (by decide) (by decide)
      (by decide) (by decide) (by decide)⟩

/-! ### Lemmas about the pagination aggregation (for C8). -/

theorem urlFold_keys_nodup :
    ∀ (l : List Product) (d : List (Url × Product)),
      (d.map Prod.fst).Nodup →
      ((l.foldl (fun d p => dictSet d p.url p) d).map Prod.fst).Nodup := by
  intro l
  induction l with
  | nil =>
    intro d hd
    exact hd
  | cons p ps ih =>
    intro d hd
    rw [List.foldl_cons]
    apply ih
    by_cases h : p.url ∈ d.map Prod.fst
    · rw [dictSet_map_fst_of_mem p h]
      exact hd
    · rw [dictSet_map_fst_of_not_mem p h]
      exact (List.perm_append_singleton p.url _).symm.nodup
        (List.nodup_cons.mpr ⟨h, hd⟩)

theorem urlFold_mem :
    ∀ (l : List Product) (d : List (Url × Product)) (u : Url),
      (u ∈ (l.foldl (fun d p => dictSet d p.url p) d).map Prod.fst ↔
        u ∈ d.map Prod.fst ∨ u ∈ l.map Product.url) := by
  intro l
  induction l with
  | nil =>
    intro d u
    simp
  | cons p ps ih =>
    intro d u
    rw [List.foldl_cons, ih]
    by_cases h : p.url ∈ d.map Prod.fst
    · rw [dictSet_map_fst_of_mem p h]
      simp only [List.map_cons, List.mem_cons]
      constructor
      · rintro (hu | hu)
        · exact Or.inl hu
        · exact Or.inr (Or.inr hu)
      · rintro (hu | hu | hu)
        · exact Or.inl hu
        · rw [hu]
          exact Or.inl h
        · exact Or.inr hu
    · rw [dictSet_map_fst_of_not_mem p h]
      simp only [List.mem_append, List.map_cons, List.mem_cons,
        List.mem_singleton]
      tauto

theorem urlFold_entry :
    ∀ (l : List Product) (d : List (Url × Product)),
      (∀ e ∈ d, Prod.fst e = (Prod.snd e).url) →
      ∀ e ∈ l.foldl (fun d p => dictSet d p.url p) d,
        Prod.fst e = (Prod.snd e).url := by
  intro l
  induction l with
  | nil =>
    intro d hd
    exact hd
  | cons p ps ih =>
    intro d hd
    rw [List.foldl_cons]
    apply ih
    intro e he
    by_cases h : p.url ∈ d.map Prod.fst
    · rw [dictSet_of_mem p h] at he
      obtain ⟨e0, he0, rfl⟩ := List.mem_map.mp he
      by_cases h0 : e0.1 = p.url
      · simp [h0]
      · simp only [if_neg h0]
        exact hd e0 he0
    · rw [dictSet_of_not_mem p h] at he
      rcases List.mem_append.mp he with he | he
      · exact hd e he
      · rw [List.mem_singleton] at he
        subst he
        rfl

theorem get_all_products_map_url (page1 : List Product)
    (rest : List (List Product)) :
    (get_all_products_from_category page1 rest).map Product.url =
      ((page1 ++ rest.flatten).foldl
        (fun d p => dictSet d p.url p) []).map Prod.fst := by
  simp only [get_all_products_from_category]
  rw [List.map_map]
  apply List.map_congr_left
  intro e he
  exact (urlFold_entry (page1 ++ rest.flatten) [] (by simp) e he).symm

/-! ### C8 -/

/-- C8: the claim takes the identity key to be the canonical URL with its
query string stripped; the code keys the dedup dict on the raw product URL
instead, so two occurrences of the same product distinguished only by
query parameters both survive: the aggregated length is 2 while there is a
single distinct stripped identity key, which appears twice. -/
theorem C8_counterexample :
    (get_all_products_from_category
      [Product.mk 0 (Url.mk 0 (some 1))]
      [[Product.mk 0 (Url.mk 0 (some 2))]]).length = 2 ∧
    ((get_all_products_from_category
      [Product.mk 0 (Url.mk 0 (some 1))]
      [[Product.mk 0 (Url.mk 0 (some 2))]]).map
        (fun p => stripQuery p.url)).dedup.length = 1 ∧
    ((get_all_products_from_category
      [Product.mk 0 (Url.mk 0 (some 1))]
      [[Product.mk 0 (Url.mk 0 (some 2))]]).map
        (fun p => stripQuery p.url)).count (Url.mk 0 none) = 2 := by
  decide

/-- C8 (amended): the aggregated product list contains each distinct raw
product URL (query string included) exactly once — the dedup key is the
exact URL as scraped, not the query-stripped canonical URL. -/
theorem C8_amended (page1 : List Product) (rest : List (List Product)) :
    ((get_all_products_from_category page1 rest).map Product.url).Nodup ∧
    ∀ p ∈ page1 ++ rest.flatten,
      ((get_all_products_from_category page1 rest).map Product.url).count
        p.url = 1 := by
  rw [get_all_products_map_url]
  constructor
  · exact urlFold_keys_nodup (page1 ++ rest.flatten) [] (by simp)
  · intro p hp
    apply List.count_eq_one_of_mem (urlFold_keys_nodup _ [] (by simp))
    rw [urlFold_mem]
    exact Or.inr (List.mem_map_of_mem Product.url hp)

/-- C8 (amended) witness: a repeated URL across two pages is kept once. -/
theorem C8_amended_witness :
    ((get_all_products_from_category [Product.mk 1 (Url.mk 7 none)]
      [[Product.mk 2 (Url.mk 7 none)]]).map Product.url).Nodup ∧
    (Product.mk 1 (Url.mk 7 none)) ∈
      [Product.mk 1 (Url.mk 7 none)] ++ [[Product.mk 2 (Url.mk 7 none)]].flatten ∧
    ((get_all_products_from_category [Product.mk 1 (Url.mk 7 none)]
      [[Product.mk 2 (Url.mk 7 none)]]).map Product.url).count
        (Product.mk 1 (Url.mk 7 none)).url = 1 :=
  ⟨(C8_amended [Product.mk 1 (Url.mk 7 none)]
      [[Product.mk 2 (Url.mk 7 none)]]).1,
    by decide,
    (C8_amended [Product.mk 1 (Url.mk 7 none)]
      [[Product.mk 2 (Url.mk 7 none)]]).2
      (Product.mk 1 (Url.mk 7 none)) (by decide)⟩

/-! ### Lemmas about the fetch client (for C2 and C3). -/

theorem fetch_loop_zero (net : ℕ → HttpResponse) (rand clock : ℕ → ℚ)
    (key : String) (bd : ℚ) (uc : Bool) (i : ℕ) (s : FetchState) :
    fetch_loop net rand clock key bd uc 0 i s = (none, s) := rfl

theorem fetch_loop_ok (net : ℕ → HttpResponse) (rand clock : ℕ → ℚ)
    (key : String) (bd : ℚ) (uc : Bool) (fuel i : ℕ) (s : FetchState)
    (body : String) (hnet : net s.requests = HttpResponse.ok body) :
    fetch_loop net rand clock key bd uc (fuel + 1) i s =
      (some body,
        { s with requests := s.requests + 1
                 cache := if uc then dictSet s.cache key body else s.cache
                 limiter := s.limiter.report_success }) := by
  rw [fetch_loop, hnet]

theorem fetch_loop_conn (net : ℕ → HttpResponse) (rand clock : ℕ → ℚ)
    (key : String) (bd : ℚ) (uc : Bool) (fuel i : ℕ) (s : FetchState)
    (hnet : net s.requests = HttpResponse.connError) :
    fetch_loop net rand clock key bd uc (fuel + 1) i s =
      fetch_loop net rand clock key bd uc fuel (i + 1)
        { s with requests := s.requests + 1 } := by
  rw [fetch_loop, hnet]

theorem fetch_loop_429 (net : ℕ → HttpResponse) (rand clock : ℕ → ℚ)
    (key : String) (bd : ℚ) (uc : Bool) (fuel i : ℕ) (s : FetchState)
    (ra : Option ℕ)
    (hnet : net s.requests = HttpResponse.httpError 429 ra) :
    fetch_loop net rand clock key bd uc (fuel + 1) i s =
      fetch_loop net rand clock key bd uc fuel (i + 1)
        { s with requests := s.requests + 1
                 limiter := s.limiter.report_429 (clock s.requests)
                   (some (min
                     (ra.elim (bd * 2 ^ i + rand s.requests)
                       (fun n => (n : ℚ) + rand s.requests))
                     300)) } := by
  rw [fetch_loop, hnet]
  cases ra <;> rfl

theorem fetch_loop_err (net : ℕ → HttpResponse) (rand clock : ℕ → ℚ)
    (key : String) (bd : ℚ) (uc : Bool) (fuel i : ℕ) (s : FetchState)
    (status : ℕ) (ra : Option ℕ)
    (hnet : net s.requests = HttpResponse.httpError status ra)
    (h429 : ¬ status = 429) :
    fetch_loop net rand clock key bd uc (fuel + 1) i s =
      (none, { s with requests := s.requests + 1 }) := by
  rw [fetch_loop, hnet]
  simp only [if_neg h429]

theorem fetch_page_hit (net : ℕ → HttpResponse) (rand clock : ℕ → ℚ)
    (url : String) (retries : ℕ) (bd : ℚ) (s : FetchState) (v : String)
    (h : dictGet s.cache (get_cache_key url) = some v) :
    fetch_page net rand clock url retries bd true s =
      (some v, { s with cacheHits := s.cacheHits + 1 }) := by
  rw [fetch_page.eq_def, h]

theorem fetch_page_miss (net : ℕ → HttpResponse) (rand clock : ℕ → ℚ)
    (url : String) (retries : ℕ) (bd : ℚ) (s : FetchState)
    (h : dictGet s.cache (get_cache_key url) = none) :
    fetch_page net rand clock url retries bd true s =
      fetch_loop net rand clock (get_cache_key url) bd true retries 0
        { s with cacheMisses := s.cacheMisses + 1, waits := s.waits + 1 } := by
  rw [fetch_page.eq_def, h]

theorem fetch_page_nocache (net : ℕ → HttpResponse) (rand clock : ℕ → ℚ)
    (url : String) (retries : ℕ) (bd : ℚ) (s : FetchState) :
    fetch_page net rand clock url retries bd false s =
      fetch_loop net rand clock (get_cache_key url) bd false retries 0
        { s with cacheMisses := s.cacheMisses + 1, waits := s.waits + 1 } := by
  rw [fetch_page.eq_def]

theorem fetch_loop_cache (net : ℕ → HttpResponse) (rand clock : ℕ → ℚ)
    (key : String) (bd : ℚ) :
    ∀ (fuel i : ℕ) (s : FetchState) (v : String) (s₁ : FetchState),
      fetch_loop net rand clock key bd true fuel i s = (some v, s₁) →
      dictGet s₁.cache key = some v := by
  intro fuel
  induction fuel with
  | zero =>
    intro i s v s₁ h
    rw [fetch_loop_zero] at h
    exact absurd (congrArg Prod.fst h) (by simp)
  | succ m ih =>
    intro i s v s₁ h
    cases hnet : net s.requests with
    | ok body =>
      rw [fetch_loop_ok net rand clock key bd true m i s body hnet,
        Prod.mk.injEq] at h
      obtain ⟨hv, hs⟩ := h
      obtain rfl : body = v := by injection hv
      rw [← hs]
      simp [dictGet_dictSet_self]
    | connError =>
      rw [fetch_loop_conn net rand clock key bd true m i s hnet] at h
      exact ih _ _ _ _ h
    | httpError status ra =>
      by_cases h429 : status = 429
      · subst h429
        rw [fetch_loop_429 net rand clock key bd true m i s ra hnet] at h
        exact ih _ _ _ _ h
      · rw [fetch_loop_err net rand clock key bd true m i s status ra hnet
          h429] at h
        exact absurd (congrArg Prod.fst h) (by simp)

theorem fetch_page_cache (net : ℕ → HttpResponse) (rand clock : ℕ → ℚ)
    (url : String) (retries : ℕ) (bd : ℚ) (s : FetchState) (v : String)
    (s₁ : FetchState)
    (h : fetch_page net rand clock url retries bd true s = (some v, s₁)) :
    dictGet s₁.cache (get_cache_key url) = some v := by
  cases hch : dictGet s.cache (get_cache_key url) with
  | some w =>
    rw [fetch_page_hit net rand clock url retries bd s w hch,
      Prod.mk.injEq] at h
    obtain ⟨hv, hs⟩ := h
    obtain rfl : w = v := by injection hv
    rw [← hs]
    exact hch
  | none =>
    rw [fetch_page_miss net rand clock url retries bd s hch] at h
    exact fetch_loop_cache net rand clock (get_cache_key url) bd
      retries 0 _ v s₁ h

/-! ### C2 and C3 -/

/-- C2: the claim says a server answering HTTP 503 on every attempt makes
`fetch_page` issue exactly `retries` GET requests before giving up; in the
code a 503 raises a non-429 `HTTPError`, handled by the non-retriable
branch, so the call returns `None` after exactly one request
(`retries = 4` here, yet one request is made). -/
theorem C2_counterexample :
    (fetch_page (fun _ => HttpResponse.httpError 503 none) (fun _ => 0)
      (fun _ => 0) ("u") 4 5 true
      (FetchState.mk [] (RateLimiter.mk 1 10 1 0 0) 0 0 0 0)).1 = none ∧
    (fetch_page (fun _ => HttpResponse.httpError 503 none) (fun _ => 0)
      (fun _ => 0) ("u") 4 5 true
      (FetchState.mk [] (RateLimiter.mk 1 10 1 0 0) 0 0 0 0)).2.requests = 1 ∧
    (fetch_page (fun _ => HttpResponse.httpError 503 none) (fun _ => 0)
      (fun _ => 0) ("u") 4 5 true
      (FetchState.mk [] (RateLimiter.mk 1 10 1 0 0) 0 0 0 0)).2.requests ≠ 4 := by
  refine ⟨rfl, rfl, by decide⟩

/-- C2 (amended): when the response to the first attempt is an HTTP 503
(and the URL is not cached), `fetch_page` performs exactly one rate-limiter
wait and exactly one GET request and returns `None` immediately: a 5xx
other than 429 is non-retriable for this client, whose session has no
retry middleware. -/
theorem C2_amended (net : ℕ → HttpResponse) (rand clock : ℕ → ℚ)
    (url : String) (retries : ℕ) (bd : ℚ) (uc : Bool) (s : FetchState)
    (ra : Option ℕ) (hr : 1 ≤ retries)
    (hc : dictGet s.cache (get_cache_key url) = none)
    (hnet : net s.requests = HttpResponse.httpError 503 ra) :
    fetch_page net rand clock url retries bd uc s =
      (none, { s with cacheMisses := s.cacheMisses + 1
                      waits := s.waits + 1
                      requests := s.requests + 1 }) := by
  obtain ⟨m, rfl⟩ : ∃ m, retries = m + 1 := ⟨retries - 1, by omega⟩
  have hreq : ({ s with cacheMisses := s.cacheMisses + 1
                        waits := s.waits + 1 } : FetchState).requests =
      s.requests := rfl
  have hbody : fetch_loop net rand clock (get_cache_key url) bd uc (m + 1) 0
      { s with cacheMisses := s.cacheMisses + 1, waits := s.waits + 1 } =
      (none, { s with cacheMisses := s.cacheMisses + 1
                      waits := s.waits + 1
                      requests := s.requests + 1 }) := by
    rw [fetch_loop_err net rand clock (get_cache_key url) bd uc m 0
      { s with cacheMisses := s.cacheMisses + 1, waits := s.waits + 1 }
      503 ra (hreq ▸ hnet) (by omega)]
  cases uc with
  | false => rw [fetch_page_nocache, hbody]
  | true => rw [fetch_page_miss net rand clock url (m + 1) bd s hc, hbody]

/-- C2 (amended) witness: fresh state, constant-503 oracle, 4 retries. -/
theorem C2_amended_witness :
    1 ≤ 4 ∧
    dictGet (FetchState.mk [] (RateLimiter.mk 1 10 1 0 0) 0 0 0 0).cache
      (get_cache_key ("u")) = none ∧
    (fun _ : ℕ => HttpResponse.httpError 503 none)
      (FetchState.mk [] (RateLimiter.mk 1 10 1 0 0) 0 0 0 0).requests =
      HttpResponse.httpError 503 none ∧
    fetch_page (fun _ => HttpResponse.httpError 503 none) (fun _ => 0)
      (fun _ => 0) ("u") 4 5 true
      (FetchState.mk [] (RateLimiter.mk 1 10 1 0 0) 0 0 0 0) =
      (none, FetchState.mk [] (RateLimiter.mk 1 10 1 0 0) 1 1 0 1) :=
  ⟨by norm_num, rfl, rfl,
    C2_amended (fun _ => HttpResponse.httpError 503 none) (fun _ => 0)
      (fun _ => 0) ("u") 4 5 true
      (FetchState.mk [] (RateLimiter.mk 1 10 1 0 0) 0 0 0 0) none
      (by norm_num) rfl rfl⟩

/-- C3: the claim ends by asserting that the two calls together issue
exactly one network request whenever the first call succeeds; it fails
when the first call retries a connection error before succeeding: with a
[connection error, 200] oracle the first call succeeds after two GET
requests and the cached second call adds none, so the pair issues two
requests, not one. -/
theorem C3_counterexample :
    (fetch_page (fun n => if n = 0 then HttpResponse.connError
        else HttpResponse.ok ("page")) (fun _ => 0) (fun _ => 0) ("u") 4 5 true
      (FetchState.mk [] (RateLimiter.mk 1 10 1 0 0) 0 0 0 0)).1 =
        some ("page") ∧
    ((fetch_page (fun n => if n = 0 then HttpResponse.connError
        else HttpResponse.ok ("page")) (fun _ => 0) (fun _ => 0) ("u") 4 5 true
      ((fetch_page (fun n => if n = 0 then HttpResponse.connError
          else HttpResponse.ok ("page")) (fun _ => 0) (fun _ => 0) ("u") 4 5 true
        (FetchState.mk [] (RateLimiter.mk 1 10 1 0 0) 0 0 0 0)).2)).2).requests
      = 2 := by
  refine ⟨rfl, rfl⟩

/-- C3 (amended): if a `use_cache` call to `fetch_page` succeeds, the next
`use_cache` call for the same URL is a pure cache hit: it returns the
identical parsed content and changes nothing but the hit counter — no
rate-limiter wait, no GET request; hence the pair issues exactly as many
requests as the first call alone, which is exactly one when the first call
misses the cache and its first attempt returns HTTP 200. -/
theorem C3_amended (net net₂ : ℕ → HttpResponse)
    (rand rand₂ clock clock₂ : ℕ → ℚ) (url : String) (r r₂ : ℕ)
    (bd bd₂ : ℚ) (s s₁ : FetchState) (v : String)
    (h1 : fetch_page net rand clock url r bd true s = (some v, s₁)) :
    fetch_page net₂ rand₂ clock₂ url r₂ bd₂ true s₁ =
      (some v, { s₁ with cacheHits := s₁.cacheHits + 1 }) ∧
    (∀ b : String, dictGet s.cache (get_cache_key url) = none →
      net s.requests = HttpResponse.ok b →
      s₁.requests = s.requests + 1) := by
  constructor
  · exact fetch_page_hit net₂ rand₂ clock₂ url r₂ bd₂ s₁ v
      (fetch_page_cache net rand clock url r bd s v s₁ h1)
  · intro b hmiss hok
    cases r with
    | zero =>
      rw [fetch_page_miss net rand clock url 0 bd s hmiss,
        fetch_loop_zero] at h1
      exact absurd (congrArg Prod.fst h1) (by simp)
    | succ m =>
      have hreq : ({ s with cacheMisses := s.cacheMisses + 1
                            waits := s.waits + 1 } : FetchState).requests =
          s.requests := rfl
      rw [fetch_page_miss net rand clock url (m + 1) bd s hmiss,
        fetch_loop_ok net rand clock (get_cache_key url) bd true m 0
          { s with cacheMisses := s.cacheMisses + 1, waits := s.waits + 1 }
          b (hreq ▸ hok), Prod.mk.injEq] at h1
      obtain ⟨hv, hs⟩ := h1
      rw [← hs]

/-- C3 (amended) witness: a clean miss-then-hit pair with a 200 first
response. -/
theorem C3_amended_witness :
    (fetch_page (fun _ => HttpResponse.ok ("page")) (fun _ => 0) (fun _ => 0)
        ("u") 4 5 true (FetchState.mk [] (RateLimiter.mk 1 10 1 0 0) 0 0 0 0) =
      (some ("page"),
        FetchState.mk [(("u"), ("page"))] (RateLimiter.mk 1 10 1 0 1)
          1 1 0 1)) ∧
    fetch_page (fun _ => HttpResponse.ok ("page")) (fun _ => 0) (fun _ => 0)
        ("u") 4 5 true
        (FetchState.mk [(("u"), ("page"))] (RateLimiter.mk 1 10 1 0 1)
          1 1 0 1) =
      (some ("page"),
        FetchState.mk [(("u"), ("page"))] (RateLimiter.mk 1 10 1 0 1)
          1 1 1 1) :=
  ⟨rfl,
    (C3_amended (fun _ => HttpResponse.ok ("page"))
      (fun _ => HttpResponse.ok ("page")) (fun _ => 0) (fun _ => 0)
      (fun _ => 0) (fun _ => 0) ("u") 4 4 5 5
      (FetchState.mk [] (RateLimiter.mk 1 10 1 0 0) 0 0 0 0)
      (FetchState.mk [(("u"), ("page"))] (RateLimiter.mk 1 10 1 0 1) 1 1 0 1)
      ("page") rfl).1⟩
/-- C10 witness at `max_size = 1` with an overflowing insert. -/
theorem C10_witness :
    1 ≤ 1 ∧
    ((runOps (LimitedCache.empty ℕ ℕ 1)
        [CacheOp.set 0 1, CacheOp.set 1 2, CacheOp.get 0]).cache.length ≤ 1 ∧
    (∀ (c : LimitedCache ℕ ℕ) (k v old : ℕ) (rest : List ℕ),
      LCInv c → c.get k = none → c.max_size ≤ c.cache.length →
      c.access_order = old :: rest →
      (c.set k v).get old = none ∧ (c.set k v).get k = some v ∧
      ∀ q, q ≠ old → q ≠ k → (c.set k v).get q = c.get q)) :=
  ⟨by norm_num,
    C10_theorem 1 (by norm_num) [CacheOp.set 0 1, CacheOp.set 1 2, CacheOp.get 0]⟩

end Scrape
